import Mathlib

/-!
# Verification of the Cogniva retrieval service

Shallow embedding of the repository's retrieval logic.

Source files embedded:
* `src/sandbox/chatbot.py` — module-level loading of a CSV dataset, computation of
  sentence embeddings, and the `retrieve(query, top_k=1)` function which scores the
  query embedding against every stored embedding by cosine similarity and returns the
  `top_k` best rows of the dataframe (`df.iloc[best_idx]`).
* `src/main.py` — the `/retrieve/` FastAPI endpoint, which calls
  `retrieve("France", top_k=1).get("text")` and wraps the result in `{"results": ...}`.

Modelling choices, recorded once here:
* The sentence-transformer model is an external collaborator; it is embedded as an
  abstract deterministic function `encode : String → Vec` carried in the state.
* Embedding vectors are lists of exact integers (stand-ins for the model's real
  vector entries, sufficient since no claim depends on fractional entries, and kept
  exactly evaluable).  A cosine-similarity score
  `cos(u,v) = ⟨u,v⟩ / (‖u‖‖v‖)` is represented exactly (no floating point) by the pair
  `Score.mk d n` standing for the real number `d / √n`, with `d = ⟨u,v⟩` and
  `n = ‖u‖²‖v‖²`.  `torch`'s `util.cos_sim` clamps a zero norm, producing score `0`
  for a zero vector; this is the `⟨0, 1⟩` branch of `cos_sim`.
* `torch.Tensor.topk` returns the indices of the `k` largest scores in descending
  order; on ties it is modelled as preferring the smaller index (stable selection).
  For `k` larger than the number of scores it raises a runtime "selected index out of
  range" error, modelled as `RErr.invalidArgument` following the spec's error taxonomy.
* `pandas` cells are modelled by `Cell` (string, integer, or missing); `astype(str)`
  is `Cell.toStr`, with the missing value stringifying to `"nan"` as pandas does.
-/

/-! ## Data model: cells and data frames (the pandas layer) -/

/-- One cell of the loaded CSV: a string, an integer, or a missing value (NaN). -/
inductive Cell where
  | str (s : String)
  | int (z : Int)
  | na
deriving DecidableEq

/-- `astype(str)` on one cell.  pandas stringifies a missing value to `"nan"`. -/
def Cell.toStr : Cell → String
  | .str s => s
  | .int z => toString z
  | .na => "nan"

/-- The loaded dataframe `df`: named columns and a list of rows. -/
structure DataFrame where
  cols : List String
  rows : List (List Cell)
deriving DecidableEq

/-- `df[c]` / `df.get(c)`: the column named `c`, as a list of cells, or `none` if the
column is absent. -/
def DataFrame.getCol (df : DataFrame) (c : String) : Option (List Cell) :=
  (df.cols.findIdx? (fun x => x == c)).map fun j => df.rows.map fun r => r.getD j Cell.na

/-- `df.iloc[idxs]`: the sub-dataframe made of the rows at positions `idxs`, in that
order.  The retrieval code only ever passes in-range indices. -/
def DataFrame.iloc (df : DataFrame) (idxs : List Nat) : DataFrame :=
  ⟨df.cols, idxs.map fun i => df.rows.getD i []⟩

/-! ## Vectors and exact cosine-similarity scores -/

/-- An embedding vector. -/
abbrev Vec := List ℤ

/-- Dot product (zip-wise product, summed; trailing entries of the longer list are
dropped, matching equal-dimension vectors). -/
def dot (u v : Vec) : ℤ := (List.zipWith (· * ·) u v).sum

/-- Squared Euclidean norm. -/
def normSq (u : Vec) : ℤ := dot u u

/-- Exact representation of a cosine-similarity score: `⟨d, n⟩` stands for the real
number `d / √n`. -/
structure Score where
  d : ℤ
  n : ℤ
deriving DecidableEq

/-- `util.cos_sim` on a single pair of vectors, represented exactly.  A zero vector is
normalised with a clamped denominator by torch, yielding score `0`. -/
def cos_sim (u v : Vec) : Score :=
  if normSq u = 0 ∨ normSq v = 0 then ⟨0, 1⟩ else ⟨dot u v, normSq u * normSq v⟩

/-- Comparison of two represented scores: `Score.le s t` decides `s.d/√s.n ≤ t.d/√t.n`
for nonnegative `n`, by sign analysis and cross-multiplication of squares. -/
def Score.le (s t : Score) : Bool :=
  if 0 < s.d then
    if 0 < t.d then decide (s.d ^ 2 * t.n ≤ t.d ^ 2 * s.n) else false
  else if s.d = 0 then decide (0 ≤ t.d)
  else if t.d < 0 then decide (t.d ^ 2 * s.n ≤ s.d ^ 2 * t.n) else true

/-- The represented score is exactly `1` (the maximal cosine similarity):
`d / √n = 1` iff `d ≥ 0` and `d² = n`. -/
def Score.isOne (s : Score) : Prop := 0 ≤ s.d ∧ s.d ^ 2 = s.n

/-! ## The `topk` model (torch.Tensor.topk) -/

/-- First index (in list order) attaining the maximal score: elements are compared
through `f`; an earlier element is kept unless a later one is strictly larger. -/
def pickFirstMax (f : Nat → Score) : List Nat → Option Nat
  | [] => none
  | x :: l =>
    match pickFirstMax f l with
    | none => some x
    | some m => if Score.le (f m) (f x) then some x else some m

/-- Select `k` indices from the candidate list, repeatedly extracting the
first maximal one.  Produces the indices of the `k` largest scores in descending
order, ties resolved towards the smaller index. -/
def topkAux (f : Nat → Score) : Nat → List Nat → List Nat
  | 0, _ => []
  | k + 1, cands =>
    match pickFirstMax f cands with
    | none => []
    | some m => m :: topkAux f k (cands.erase m)

/-- The retrieval error taxonomy of the spec that is reachable from `retrieve`:
torch's "selected index out of range" on an oversized `k` is an invalid argument. -/
inductive RErr where
  | invalidArgument
deriving DecidableEq

/-- `scores.topk(k=top_k).indices.tolist()`: the indices of the `top_k` largest
scores in descending order, or an error when `top_k` exceeds the number of scores. -/
def topkIndices (scores : List Score) (k : Nat) : Except RErr (List Nat) :=
  if k ≤ scores.length then
    .ok (topkAux (fun i => scores.getD i ⟨0, 1⟩) k (List.range scores.length))
  else .error .invalidArgument

/-! ## The module-level state of `chatbot.py` and `retrieve` -/

/-- The process-wide Embedding Index built at module load: the dataframe `df`, the
embedding model `encode`, the stringified `texts`, and their `embeddings`. -/
structure LoadedIndex where
  df : DataFrame
  encode : String → Vec
  texts : List String
  embeddings : List Vec

/-- `df["text"].astype(str).tolist()`; `none` models the `KeyError` (a fatal
`DataLoadError` at startup) when the `text` column is missing. -/
def loadTexts (df : DataFrame) : Option (List String) :=
  (df.getCol "text").map fun tc => tc.map Cell.toStr

/-- Module initialisation: load the texts and compute `model.encode(texts)`. -/
def load (df : DataFrame) (encode : String → Vec) : Option LoadedIndex :=
  (loadTexts df).map fun ts => ⟨df, encode, ts, ts.map encode⟩

/-- The per-query score list: `util.cos_sim(q_emb, embeddings)[0]`. -/
def scoresOf (st : LoadedIndex) (query : String) : List Score :=
  st.embeddings.map fun e => cos_sim (st.encode query) e

/-- The score of the document at position `i` for this query. -/
def scoreAt (st : LoadedIndex) (query : String) (i : Nat) : Score :=
  (scoresOf st query).getD i ⟨0, 1⟩

/-- `retrieve(query, top_k)` from `src/sandbox/chatbot.py`:
embed the query, score it against every stored embedding, take the `top_k` best
indices, and return `df.iloc[best_idx]`. -/
def retrieve (st : LoadedIndex) (query : String) (top_k : Nat) : Except RErr DataFrame :=
  let q_emb := st.encode query
  let scores := st.embeddings.map fun e => cos_sim q_emb e
  (topkIndices scores top_k).map fun best_idx => st.df.iloc best_idx

/-- `retrieve(query)` with the Python default `top_k=1`: the body of `retrieve`
with the default argument value substituted. -/
def retrieveDefault (st : LoadedIndex) (query : String) : Except RErr DataFrame :=
  let q_emb := st.encode query
  let scores := st.embeddings.map fun e => cos_sim q_emb e
  (topkIndices scores 1).map fun best_idx => st.df.iloc best_idx

/-- State-passing embedding of one `retrieve` call: the Python function only reads
the module globals (`model`, `df`, `embeddings`), so the state component is returned
as received. -/
def retrieveStep (st : LoadedIndex) (query : String) (top_k : Nat) :
    Except RErr DataFrame × LoadedIndex :=
  (retrieve st query top_k, st)

/-! ## The `/retrieve/` endpoint of `src/main.py` -/

/-- The JSON-able values that can appear under `"results"`.
`series` is a pandas Series (the `text` column of the returned rows, original cell
values); `str` is a bare string (what the spec's interface table promises); `jnull`
is Python `None` (what `.get` yields when the column is missing). -/
inductive JVal where
  | str (s : String)
  | series (cells : List Cell)
  | jnull
deriving DecidableEq

/-- Modelled from the spec: `src/main.py` imports `retrieve` from
`src/utils/sentence_transformer_utils/main.py`, which is not in the repository
snapshot; per the spec, `sandbox/chatbot.py` "performs the same retrieval logic", so
the endpoint is embedded against `retrieve` above.
`retrieve_endpoint` computes `{"results": retrieve("France", top_k=1).get("text")}`. -/
def retrieve_endpoint (st : LoadedIndex) : Except RErr (String × JVal) :=
  (retrieve st "France" 1).map fun res =>
    ("results", match res.getCol "text" with
      | some cells => JVal.series cells
      | none => JVal.jnull)

/-- Decidable equality of `Except` results, for concrete evaluation. -/
instance {e a : Type} [DecidableEq e] [DecidableEq a] : DecidableEq (Except e a) := fun x y =>
  match x, y with
  | .ok v, .ok w =>
    if h : v = w then .isTrue (by rw [h]) else .isFalse (fun hc => h (Except.ok.inj hc))
  | .ok _, .error _ => .isFalse (fun hc => Except.noConfusion hc)
  | .error _, .ok _ => .isFalse (fun hc => Except.noConfusion hc)
  | .error v, .error w =>
    if h : v = w then .isTrue (by rw [h]) else .isFalse (fun hc => h (Except.error.inj hc))

/-! ## The alignment invariant and concrete example data -/

/-- The alignment invariant of the Embedding Store (spec, data model): one embedding
per document row, the `i`-th embedding derived from the `i`-th stringified text. -/
def aligned (st : LoadedIndex) : Prop :=
  st.embeddings.length = st.df.rows.length ∧
  st.texts.length = st.df.rows.length ∧
  ∀ i, i < st.embeddings.length → st.embeddings.getD i [] = st.encode (st.texts.getD i "")

/-- The spec's example dataset: two documents about Paris and Tokyo. -/
def exDf : DataFrame :=
  ⟨["text"],
   [[Cell.str "Paris is the capital of France"], [Cell.str "Tokyo is the capital of Japan"]]⟩

/-- A concrete deterministic stand-in embedding function for the example dataset. -/
def exEncode (s : String) : Vec :=
  if s = "France" then [3, 4]
  else if s = "Paris is the capital of France" then [6, 8]
  else if s = "Tokyo is the capital of Japan" then [4, -3]
  else [1, 0]

/-- The stringified texts of the example dataset. -/
def exTexts : List String :=
  ["Paris is the capital of France", "Tokyo is the capital of Japan"]

/-- The loaded example index (what `load exDf exEncode` produces). -/
def exSt : LoadedIndex := ⟨exDf, exEncode, exTexts, exTexts.map exEncode⟩

/-- A dataset with two rows sharing the same text but distinguishable by a second
column. -/
def dupDf : DataFrame :=
  ⟨["text", "id"], [[Cell.str "a", Cell.int 0], [Cell.str "a", Cell.int 1]]⟩

/-- An embedding function for the duplicate-text dataset. -/
def dupEncode (s : String) : Vec := if s = "a" then [1] else [0]

/-- The stringified texts of the duplicate-text dataset. -/
def dupTexts : List String := ["a", "a"]

/-- The loaded duplicate-text index (what `load dupDf dupEncode` produces). -/
def dupSt : LoadedIndex := ⟨dupDf, dupEncode, dupTexts, dupTexts.map dupEncode⟩

/-- A dataset whose `text` column holds an integer, a missing value, and a string. -/
def mixDf : DataFrame := ⟨["text"], [[Cell.int 7], [Cell.na], [Cell.str "x"]]⟩

/-! ## Order properties of represented scores -/

/-- Unfolding of the Boolean score comparison into its sign cases. -/
theorem Score.le_iff (s t : Score) : Score.le s t = true ↔
    ((0 < s.d ∧ 0 < t.d ∧ s.d ^ 2 * t.n ≤ t.d ^ 2 * s.n) ∨
     (s.d = 0 ∧ 0 ≤ t.d) ∨
     (s.d < 0 ∧ 0 ≤ t.d) ∨
     (s.d < 0 ∧ t.d < 0 ∧ t.d ^ 2 * s.n ≤ s.d ^ 2 * t.n)) := by
  unfold Score.le
  split_ifs with h1 h2 h3 h4
  · simp only [decide_eq_true_eq]
    constructor
    · intro h; exact Or.inl ⟨h1, h2, h⟩
    · rintro (⟨_, _, h⟩ | ⟨h, _⟩ | ⟨h, _⟩ | ⟨_, h, _⟩) <;> first | exact h | linarith
  · simp only [Bool.false_eq_true, false_iff]
    rintro (⟨_, h, _⟩ | ⟨h, _⟩ | ⟨h, _⟩ | ⟨_, h, _⟩) <;> linarith
  · simp only [decide_eq_true_eq]
    constructor
    · intro h; exact Or.inr (Or.inl ⟨h3, h⟩)
    · rintro (⟨h, _, _⟩ | ⟨_, h⟩ | ⟨h, _⟩ | ⟨_, _, _⟩) <;> first | assumption | linarith
  · simp only [decide_eq_true_eq]
    have hs : s.d < 0 := by rcases lt_trichotomy s.d 0 with h | h | h <;> first | exact h | exact absurd h h3 | exact absurd h h1
    constructor
    · intro h; exact Or.inr (Or.inr (Or.inr ⟨hs, h4, h⟩))
    · rintro (⟨h, _, _⟩ | ⟨h, _⟩ | ⟨_, h⟩ | ⟨_, _, h⟩) <;> first | exact h | linarith
  · have hs : s.d < 0 := by rcases lt_trichotomy s.d 0 with h | h | h <;> first | exact h | exact absurd h h3 | exact absurd h h1
    have ht : 0 ≤ t.d := le_of_not_lt h4
    simp only [true_iff]
    exact Or.inr (Or.inr (Or.inl ⟨hs, ht⟩))

/-- The score comparison is reflexive. -/
theorem Score.le_refl (s : Score) : Score.le s s = true := by
  rw [Score.le_iff]
  rcases lt_trichotomy s.d 0 with h | h | h
  · exact Or.inr (Or.inr (Or.inr ⟨h, h, le_rfl⟩))
  · exact Or.inr (Or.inl ⟨h, le_of_eq h.symm⟩)
  · exact Or.inl ⟨h, h, le_rfl⟩

/-- The score comparison is total. -/
theorem Score.le_total (s t : Score) : Score.le s t = true ∨ Score.le t s = true := by
  rw [Score.le_iff, Score.le_iff]
  rcases lt_trichotomy s.d 0 with hs | hs | hs <;> rcases lt_trichotomy t.d 0 with ht | ht | ht
  · rcases le_or_lt (t.d ^ 2 * s.n) (s.d ^ 2 * t.n) with h | h
    · exact Or.inl (Or.inr (Or.inr (Or.inr ⟨hs, ht, h⟩)))
    · exact Or.inr (Or.inr (Or.inr (Or.inr ⟨ht, hs, h.le⟩)))
  · exact Or.inl (Or.inr (Or.inr (Or.inl ⟨hs, ht.ge⟩)))
  · exact Or.inl (Or.inr (Or.inr (Or.inl ⟨hs, ht.le⟩)))
  · exact Or.inr (Or.inr (Or.inr (Or.inl ⟨ht, hs.ge⟩)))
  · exact Or.inl (Or.inr (Or.inl ⟨hs, ht.ge⟩))
  · exact Or.inl (Or.inr (Or.inl ⟨hs, ht.le⟩))
  · exact Or.inr (Or.inr (Or.inr (Or.inl ⟨ht, hs.le⟩)))
  · exact Or.inr (Or.inr (Or.inl ⟨ht, hs.le⟩))
  · rcases le_or_lt (s.d ^ 2 * t.n) (t.d ^ 2 * s.n) with h | h
    · exact Or.inl (Or.inl ⟨hs, ht, h⟩)
    · exact Or.inr (Or.inl ⟨ht, hs, h.le⟩)

/-- The score comparison is transitive on scores with nonnegative `n` component. -/
theorem Score.le_trans {s t u : Score} (hsn : 0 ≤ s.n) (htn : 0 ≤ t.n) (hun : 0 ≤ u.n)
    (h1 : Score.le s t = true) (h2 : Score.le t u = true) : Score.le s u = true := by
  rw [Score.le_iff] at h1 h2 ⊢
  rcases h1 with ⟨hs, ht, hc1⟩ | ⟨hs, ht⟩ | ⟨hs, ht⟩ | ⟨hs, ht, hc1⟩ <;>
    rcases h2 with ⟨ht2, hu2, hc2⟩ | ⟨ht2, hu2⟩ | ⟨ht2, hu2⟩ | ⟨ht2, hu2, hc2⟩ <;>
    try (exfalso; linarith)
  · refine Or.inl ⟨hs, hu2, ?_⟩
    rcases htn.eq_or_gt with h0 | h0
    · rw [h0, mul_zero] at hc2
      have hun0 : u.n = 0 := le_antisymm (by nlinarith [pow_pos ht2 2]) hun
      rw [hun0, mul_zero]
      exact mul_nonneg (sq_nonneg _) hsn
    · have key : s.d ^ 2 * u.n * t.n ≤ u.d ^ 2 * s.n * t.n := by
        nlinarith [mul_le_mul_of_nonneg_right hc1 hun, mul_le_mul_of_nonneg_right hc2 hsn]
      exact le_of_mul_le_mul_right key h0
  · exact Or.inr (Or.inl ⟨hs, hu2.le⟩)
  · exact Or.inr (Or.inl ⟨hs, hu2⟩)
  · exact Or.inr (Or.inr (Or.inl ⟨hs, hu2.le⟩))
  · exact Or.inr (Or.inr (Or.inl ⟨hs, hu2⟩))
  · exact Or.inr (Or.inr (Or.inl ⟨hs, hu2⟩))
  · refine Or.inr (Or.inr (Or.inr ⟨hs, hu2, ?_⟩))
    rcases htn.eq_or_gt with h0 | h0
    · rw [h0, mul_zero] at hc1
      have htd2 : 0 < t.d ^ 2 := by nlinarith [mul_pos (neg_pos.mpr ht2) (neg_pos.mpr ht2)]
      have hsn0 : s.n = 0 := le_antisymm (by nlinarith) hsn
      rw [hsn0, mul_zero]
      exact mul_nonneg (sq_nonneg _) hun
    · have key : u.d ^ 2 * s.n * t.n ≤ s.d ^ 2 * u.n * t.n := by
        nlinarith [mul_le_mul_of_nonneg_right hc2 hsn, mul_le_mul_of_nonneg_right hc1 hun]
      exact le_of_mul_le_mul_right key h0

/-! ## Cauchy–Schwarz and properties of `cos_sim` -/

theorem dot_nil_left (v : Vec) : dot [] v = 0 := rfl

theorem dot_nil_right (u : Vec) : dot u [] = 0 := by cases u <;> rfl

theorem dot_cons (a : ℤ) (u : Vec) (b : ℤ) (v : Vec) :
    dot (a :: u) (b :: v) = a * b + dot u v := by
  simp [dot]

theorem normSq_nil : normSq [] = 0 := rfl

theorem normSq_cons (a : ℤ) (u : Vec) : normSq (a :: u) = a * a + normSq u :=
  dot_cons a u a u

theorem normSq_nonneg (u : Vec) : 0 ≤ normSq u := by
  induction u with
  | nil => exact le_rfl
  | cons a u ih => rw [normSq_cons]; exact add_nonneg (mul_self_nonneg a) ih

/-- Cauchy–Schwarz for the list dot product. -/
theorem cauchy_schwarz (u v : Vec) : dot u v ^ 2 ≤ normSq u * normSq v := by
  induction u generalizing v with
  | nil => rw [dot_nil_left, normSq_nil, zero_mul]; norm_num
  | cons a u ih =>
    cases v with
    | nil => rw [dot_nil_right, normSq_nil, mul_zero]; norm_num
    | cons b w =>
      have h := ih w
      have hU := normSq_nonneg u
      have hW := normSq_nonneg w
      rw [dot_cons, normSq_cons, normSq_cons]
      rcases hU.eq_or_gt with h0 | h0
      · have hd : dot u w = 0 := by nlinarith
        rw [hd, h0]
        nlinarith [mul_nonneg (mul_self_nonneg a) hW]
      · nlinarith [sq_nonneg (a * dot u w - b * normSq u),
          mul_le_mul_of_nonneg_left h hU, sq_nonneg (a * b)]

/-- Every score produced by `cos_sim` has a positive `n` component. -/
theorem cos_sim_n_pos (u v : Vec) : 0 < (cos_sim u v).n := by
  unfold cos_sim
  split_ifs with h
  · norm_num
  · push_neg at h
    exact mul_pos ((normSq_nonneg u).lt_of_ne (Ne.symm h.1))
      ((normSq_nonneg v).lt_of_ne (Ne.symm h.2))

/-- A vector of nonzero norm compared against itself: the score is `⟨N, N²⟩`. -/
theorem cos_sim_self (u : Vec) (h : normSq u ≠ 0) :
    cos_sim u u = ⟨normSq u, normSq u * normSq u⟩ := by
  unfold cos_sim
  rw [if_neg (by tauto)]
  rfl

/-- Self-similarity of a vector of nonzero norm is exactly the maximal score `1`. -/
theorem cos_sim_self_isOne (u : Vec) (h : normSq u ≠ 0) : (cos_sim u u).isOne := by
  rw [cos_sim_self u h]
  exact ⟨normSq_nonneg u, by ring⟩

/-- Cauchy–Schwarz, score form: no vector scores higher against `u` than `u` itself. -/
theorem le_cos_sim_self (u v : Vec) (h : normSq u ≠ 0) :
    Score.le (cos_sim u v) (cos_sim u u) = true := by
  have hN : 0 < normSq u := (normSq_nonneg u).lt_of_ne (Ne.symm h)
  by_cases h2 : normSq v = 0
  · have e : cos_sim u v = ⟨0, 1⟩ := by unfold cos_sim; rw [if_pos (Or.inr h2)]
    rw [e, cos_sim_self u h, Score.le_iff]
    exact Or.inr (Or.inl ⟨rfl, hN.le⟩)
  · have e : cos_sim u v = ⟨dot u v, normSq u * normSq v⟩ := by
      unfold cos_sim; rw [if_neg (by tauto)]
    rw [e, cos_sim_self u h, Score.le_iff]
    dsimp only
    rcases lt_trichotomy (dot u v) 0 with hd | hd | hd
    · exact Or.inr (Or.inr (Or.inl ⟨hd, hN.le⟩))
    · exact Or.inr (Or.inl ⟨hd, hN.le⟩)
    · refine Or.inl ⟨hd, hN, ?_⟩
      nlinarith [mul_le_mul_of_nonneg_left (cauchy_schwarz u v) (sq_nonneg (normSq u))]

/-! ## Properties of the `topk` model -/

theorem pickFirstMax_cons (f : Nat → Score) (x : Nat) (l : List Nat) :
    pickFirstMax f (x :: l) = match pickFirstMax f l with
      | none => some x
      | some m => if Score.le (f m) (f x) then some x else some m := rfl

theorem pickFirstMax_eq_none {f : Nat → Score} {l : List Nat} :
    pickFirstMax f l = none ↔ l = [] := by
  cases l with
  | nil => simp [pickFirstMax]
  | cons x t =>
    rw [pickFirstMax_cons]
    cases pickFirstMax f t
    · simp
    · simp only [List.cons_ne_nil, iff_false]
      split <;> simp

theorem pickFirstMax_mem {f : Nat → Score} {l : List Nat} {m : Nat}
    (h : pickFirstMax f l = some m) : m ∈ l := by
  induction l generalizing m with
  | nil => simp [pickFirstMax] at h
  | cons x t ih =>
    rw [pickFirstMax_cons] at h
    cases e : pickFirstMax f t with
    | none => rw [e] at h; simp at h; simp [h]
    | some m2 =>
      rw [e] at h
      dsimp only at h
      by_cases h2 : Score.le (f m2) (f x) = true
      · rw [if_pos h2] at h
        simp at h
        simp [h]
      · rw [if_neg h2] at h
        simp at h
        exact List.mem_cons_of_mem x (h ▸ ih e)

/-- The element selected by `pickFirstMax` has a maximal score among the candidates. -/
theorem pickFirstMax_max {f : Nat → Score} (hf : ∀ i, 0 < (f i).n) {l : List Nat} {m : Nat}
    (h : pickFirstMax f l = some m) : ∀ x ∈ l, Score.le (f x) (f m) = true := by
  induction l generalizing m with
  | nil => simp [pickFirstMax] at h
  | cons y t ih =>
    intro x hx
    rw [pickFirstMax_cons] at h
    cases e : pickFirstMax f t with
    | none =>
      rw [e] at h
      simp at h
      rcases List.mem_cons.mp hx with rfl | hx2
      · rw [← h]; exact Score.le_refl _
      · rw [pickFirstMax_eq_none.mp e] at hx2
        simp at hx2
    | some m2 =>
      rw [e] at h
      dsimp only at h
      by_cases h2 : Score.le (f m2) (f y) = true
      · rw [if_pos h2] at h
        simp at h
        rw [← h]
        rcases List.mem_cons.mp hx with rfl | hx2
        · exact Score.le_refl _
        · exact Score.le_trans (hf _).le (hf _).le (hf _).le (ih e x hx2) h2
      · rw [if_neg h2] at h
        simp at h
        rw [← h]
        rcases List.mem_cons.mp hx with rfl | hx2
        · rcases Score.le_total (f x) (f m2) with ht | ht
          · exact ht
          · exact absurd ht h2
        · exact ih e x hx2

/-- Appending a later candidate: it is selected only when strictly better than the
maximum of the earlier ones. -/
theorem pickFirstMax_append {f : Nat → Score} (hf : ∀ i, 0 < (f i).n) (l : List Nat) (a : Nat) :
    pickFirstMax f (l ++ [a]) = some (match pickFirstMax f l with
      | none => a
      | some m => if Score.le (f a) (f m) then m else a) := by
  induction l with
  | nil => rfl
  | cons x l ih =>
    rw [List.cons_append, pickFirstMax_cons, ih, pickFirstMax_cons]
    cases e : pickFirstMax f l with
    | none =>
      cases hb : Score.le (f a) (f x) <;> simp [hb]
    | some m =>
      cases hb1 : Score.le (f a) (f m) with
      | true =>
        cases hb2 : Score.le (f m) (f x) with
        | true =>
          have hb3 : Score.le (f a) (f x) = true :=
            Score.le_trans (hf _).le (hf _).le (hf _).le hb1 hb2
          simp [hb1, hb2, hb3]
        | false => simp [hb1, hb2]
      | false =>
        cases hb2 : Score.le (f m) (f x) with
        | true =>
          cases hb3 : Score.le (f a) (f x) with
          | true => simp [hb1, hb2, hb3]
          | false => simp [hb1, hb2, hb3]
        | false =>
          have hb3 : Score.le (f a) (f x) = false := by
            cases hc : Score.le (f a) (f x) with
            | false => rfl
            | true =>
              rcases Score.le_total (f x) (f m) with ht | ht
              · have h4 := Score.le_trans (hf _).le (hf _).le (hf _).le hc ht
                rw [h4] at hb1
                exact hb1
              · rw [ht] at hb2
                exact hb2
          simp [hb1, hb2, hb3]

/-- On `range n`, `pickFirstMax` returns `i` when `i` has maximal score and every
earlier index scores strictly lower. -/
theorem pickFirstMax_range {f : Nat → Score} (hf : ∀ i, 0 < (f i).n) {n i : Nat}
    (hi : i < n)
    (hmax : ∀ j, j < n → Score.le (f j) (f i) = true)
    (hfirst : ∀ j, j < i → Score.le (f i) (f j) = false) :
    pickFirstMax f (List.range n) = some i := by
  induction n with
  | zero => omega
  | succ n ihn =>
    rw [List.range_succ, pickFirstMax_append hf]
    rcases Nat.lt_or_ge i n with h | h
    · have e : pickFirstMax f (List.range n) = some i :=
        ihn h (fun j hj => hmax j (Nat.lt_succ_of_lt hj))
      rw [e]
      dsimp only
      rw [if_pos (hmax n (Nat.lt_succ_self n))]
    · have hi2 : i = n := by omega
      subst hi2
      cases e : pickFirstMax f (List.range i) with
      | none => rfl
      | some m =>
        have hm : m < i := List.mem_range.mp (pickFirstMax_mem e)
        dsimp only
        rw [if_neg (by simp [hfirst m hm])]

theorem topkAux_zero (f : Nat → Score) (cands : List Nat) : topkAux f 0 cands = [] := rfl

theorem topkAux_succ (f : Nat → Score) (k : Nat) (cands : List Nat) :
    topkAux f (k + 1) cands = match pickFirstMax f cands with
      | none => []
      | some m => m :: topkAux f k (cands.erase m) := rfl

/-- Every index returned by `topkAux` is one of the candidates. -/
theorem topkAux_subset {f : Nat → Score} :
    ∀ (k : Nat) (cands : List Nat), ∀ x ∈ topkAux f k cands, x ∈ cands := by
  intro k
  induction k with
  | zero => intro cands x hx; simp [topkAux_zero] at hx
  | succ k ih =>
    intro cands x hx
    rw [topkAux_succ] at hx
    cases e : pickFirstMax f cands with
    | none => rw [e] at hx; simp at hx
    | some m =>
      rw [e] at hx
      dsimp only at hx
      rcases List.mem_cons.mp hx with rfl | hx2
      · exact pickFirstMax_mem e
      · exact List.mem_of_mem_erase (ih (cands.erase m) x hx2)

/-- `topkAux` never selects the same position twice. -/
theorem topkAux_nodup {f : Nat → Score} :
    ∀ (k : Nat) (cands : List Nat), cands.Nodup → (topkAux f k cands).Nodup := by
  intro k
  induction k with
  | zero => intro cands _; simp [topkAux_zero]
  | succ k ih =>
    intro cands hnd
    rw [topkAux_succ]
    cases e : pickFirstMax f cands with
    | none => simp
    | some m =>
      dsimp only
      refine List.nodup_cons.mpr ⟨?_, ih (cands.erase m) (hnd.erase m)⟩
      intro hmem
      have : m ∈ cands.erase m := topkAux_subset k (cands.erase m) m hmem
      exact (List.Nodup.mem_erase_iff hnd).mp this |>.1 rfl

/-- `topkAux` returns `min k (number of candidates)` indices. -/
theorem topkAux_length {f : Nat → Score} :
    ∀ (k : Nat) (cands : List Nat), (topkAux f k cands).length = min k cands.length := by
  intro k
  induction k with
  | zero => intro cands; simp [topkAux_zero]
  | succ k ih =>
    intro cands
    rw [topkAux_succ]
    cases e : pickFirstMax f cands with
    | none =>
      rw [pickFirstMax_eq_none.mp e]
      simp
    | some m =>
      dsimp only
      have hm : m ∈ cands := pickFirstMax_mem e
      have hlen : (cands.erase m).length = cands.length - 1 := List.length_erase_of_mem hm
      have hpos : 0 < cands.length := List.length_pos.mpr (List.ne_nil_of_mem hm)
      rw [List.length_cons, ih (cands.erase m), hlen]
      omega

/-- The scores along the indices returned by `topkAux` are non-increasing. -/
theorem topkAux_chain {f : Nat → Score} (hf : ∀ i, 0 < (f i).n) :
    ∀ (k : Nat) (cands : List Nat),
      List.Chain' (fun a b => Score.le (f b) (f a) = true) (topkAux f k cands) := by
  intro k
  induction k with
  | zero => intro cands; simp [topkAux_zero]
  | succ k ih =>
    intro cands
    rw [topkAux_succ]
    cases e : pickFirstMax f cands with
    | none => simp
    | some m =>
      dsimp only
      rw [List.chain'_cons']
      refine ⟨?_, ih (cands.erase m)⟩
      intro b hb
      have hb2 : b ∈ topkAux f k (cands.erase m) := List.mem_of_mem_head? hb
      have hb3 : b ∈ cands := List.mem_of_mem_erase (topkAux_subset k (cands.erase m) b hb2)
      exact pickFirstMax_max hf e b hb3

/-! ## Facts about loading and `retrieve` -/

/-- Unpacking a successful module load. -/
theorem load_spec {df : DataFrame} {encode : String → Vec} {st : LoadedIndex}
    (h : load df encode = some st) :
    ∃ tc, df.getCol "text" = some tc ∧
      st = ⟨df, encode, tc.map Cell.toStr, (tc.map Cell.toStr).map encode⟩ := by
  unfold load loadTexts at h
  cases e : df.getCol "text" with
  | none => rw [e] at h; simp at h
  | some tc =>
    rw [e] at h
    simp only [Option.map_some'] at h
    exact ⟨tc, rfl, (Option.some.inj h).symm⟩

/-- A successfully extracted column has one cell per row. -/
theorem getCol_length {df : DataFrame} {c : String} {tc : List Cell}
    (h : df.getCol c = some tc) : tc.length = df.rows.length := by
  unfold DataFrame.getCol at h
  cases e : df.cols.findIdx? (fun x => x == c) with
  | none => rw [e] at h; simp at h
  | some j =>
    rw [e] at h
    simp only [Option.map_some'] at h
    rw [← Option.some.inj h]
    exact List.length_map _ _

theorem scoresOf_length (st : LoadedIndex) (query : String) :
    (scoresOf st query).length = st.embeddings.length := List.length_map _ _

/-- Every score this code compares has a positive `n` component. -/
theorem scoreAt_n_pos (st : LoadedIndex) (query : String) (i : Nat) :
    0 < (scoreAt st query i).n := by
  unfold scoreAt
  rw [List.getD_eq_getElem?_getD]
  by_cases h : i < (scoresOf st query).length
  · rw [List.getElem?_eq_getElem h]
    unfold scoresOf
    simp only [Option.getD_some, List.getElem_map]
    exact cos_sim_n_pos _ _
  · rw [List.getElem?_eq_none (le_of_not_lt h)]
    norm_num

theorem retrieve_eq (st : LoadedIndex) (query : String) (top_k : Nat) :
    retrieve st query top_k = (topkIndices (scoresOf st query) top_k).map st.df.iloc := rfl

/-- `retrieve` on an admissible `top_k`. -/
theorem retrieve_ok (st : LoadedIndex) (query : String) (top_k : Nat)
    (h : top_k ≤ st.embeddings.length) :
    retrieve st query top_k =
      .ok (st.df.iloc (topkAux (scoreAt st query) top_k
        (List.range st.embeddings.length))) := by
  rw [retrieve_eq]
  unfold topkIndices
  rw [if_pos (by rw [scoresOf_length]; exact h), scoresOf_length]
  rfl

/-- `retrieve` on an oversized `top_k`. -/
theorem retrieve_err (st : LoadedIndex) (query : String) (top_k : Nat)
    (h : st.embeddings.length < top_k) :
    retrieve st query top_k = .error .invalidArgument := by
  rw [retrieve_eq]
  unfold topkIndices
  rw [if_neg (by rw [scoresOf_length]; omega)]
  rfl

theorem except_map_ok {e a b : Type} (f : a → b) (v : a) :
    (Except.ok v : Except e a).map f = .ok (f v) := rfl

theorem topkAux_one {f : Nat → Score} {cands : List Nat} {m : Nat}
    (h : pickFirstMax f cands = some m) : topkAux f 1 cands = [m] := by
  show topkAux f (0 + 1) cands = [m]
  rw [topkAux_succ, h]
  rfl

/-- With `top_k = 1`, `retrieve` returns exactly the first maximal-score row. -/
theorem retrieve_one_best (st : LoadedIndex) (query : String) (i : Nat)
    (hi : i < st.embeddings.length)
    (hmax : ∀ j, j < st.embeddings.length →
      Score.le (scoreAt st query j) (scoreAt st query i) = true)
    (hfirst : ∀ j, j < i →
      Score.le (scoreAt st query i) (scoreAt st query j) = false) :
    retrieve st query 1 = .ok (st.df.iloc [i]) := by
  rw [retrieve_ok st query 1 (by omega)]
  rw [topkAux_one (pickFirstMax_range (fun j => scoreAt_n_pos st query j) hi hmax hfirst)]

theorem getD_map_of_lt {α β : Type} (f : α → β) (l : List α) (i : Nat)
    (h : i < l.length) (d : α) (d2 : β) : (l.map f).getD i d2 = f (l.getD i d) := by
  rw [List.getD_eq_getElem?_getD, List.getD_eq_getElem?_getD,
    List.getElem?_eq_getElem (by rw [List.length_map]; exact h), List.getElem?_eq_getElem h]
  simp only [Option.getD_some, List.getElem_map]

theorem iloc_cols (df : DataFrame) (idxs : List Nat) : (df.iloc idxs).cols = df.cols := rfl

theorem iloc_rows (df : DataFrame) (idxs : List Nat) :
    (df.iloc idxs).rows = idxs.map fun i => df.rows.getD i [] := rfl

/-- Extracting a column from `df.iloc[idxs]` gives the cells of that column at the
selected positions. -/
theorem getCol_iloc {df : DataFrame} {c : String} {tc : List Cell}
    (h : df.getCol c = some tc) (idxs : List Nat)
    (hin : ∀ i ∈ idxs, i < df.rows.length) :
    (df.iloc idxs).getCol c = some (idxs.map fun i => tc.getD i Cell.na) := by
  unfold DataFrame.getCol at h ⊢
  rw [iloc_cols]
  cases e : df.cols.findIdx? (fun x => x == c) with
  | none => rw [e] at h; simp at h
  | some j =>
    rw [e] at h
    simp only [Option.map_some'] at h ⊢
    have htc : df.rows.map (fun r => r.getD j Cell.na) = tc := Option.some.inj h
    rw [iloc_rows, List.map_map]
    refine congrArg some (List.map_congr_left ?_)
    intro i hi
    have hilt : i < df.rows.length := hin i hi
    have h1 : i < tc.length := by rw [← htc, List.length_map]; exact hilt
    show (df.rows.getD i []).getD j Cell.na = tc.getD i Cell.na
    rw [← htc, getD_map_of_lt (fun r => r.getD j Cell.na) df.rows i hilt []]

/-! ## Claim theorems -/

/-- **C1.** For every loaded dataset of `N` documents and every `1 ≤ top_k ≤ N`,
`retrieve(query, top_k)` succeeds and returns exactly `top_k` documents, each of
which is a row of the original dataset, with no position selected twice. -/
theorem retrieve_topk_count_distinct (df : DataFrame) (encode : String → Vec)
    (st : LoadedIndex) (hload : load df encode = some st) (query : String) (top_k : Nat)
    (h1 : 1 ≤ top_k) (h2 : top_k ≤ df.rows.length) :
    ∃ idxs : List Nat,
      retrieve st query top_k = .ok (st.df.iloc idxs) ∧
      (st.df.iloc idxs).rows.length = top_k ∧
      idxs.Nodup ∧
      (∀ i ∈ idxs, i < df.rows.length) ∧
      (st.df.iloc idxs).rows = idxs.map fun i => df.rows.getD i [] := by
  obtain ⟨tc, hcol, hst⟩ := load_spec hload
  have hdf : st.df = df := by rw [hst]
  have hlen : st.embeddings.length = df.rows.length := by
    rw [hst]
    simp only [List.length_map]
    exact getCol_length hcol
  refine ⟨topkAux (scoreAt st query) top_k (List.range st.embeddings.length),
    retrieve_ok st query top_k (by rw [hlen]; exact h2), ?_, ?_, ?_, ?_⟩
  · rw [iloc_rows, List.length_map, topkAux_length, List.length_range]
    omega
  · exact topkAux_nodup _ _ (List.nodup_range _)
  · intro i hi
    have hmem := topkAux_subset _ _ i hi
    rw [← hlen]
    exact List.mem_range.mp hmem
  · rw [iloc_rows, hdf]

/-- Witness for C1 at the example index with `top_k = 2`. -/
theorem retrieve_topk_count_distinct_witness :
    ∃ idxs : List Nat,
      retrieve exSt "France" 2 = .ok (exSt.df.iloc idxs) ∧
      (exSt.df.iloc idxs).rows.length = 2 ∧
      idxs.Nodup ∧
      (∀ i ∈ idxs, i < exDf.rows.length) ∧
      (exSt.df.iloc idxs).rows = idxs.map fun i => exDf.rows.getD i [] :=
  retrieve_topk_count_distinct exDf exEncode exSt rfl "France" 2 (by decide) (by decide)

/-- **C2.** For every loaded dataset and every `top_k ≤ N`, the documents returned by
`retrieve(query, top_k)` come in order of non-increasing cosine-similarity score. -/
theorem retrieve_scores_descending (df : DataFrame) (encode : String → Vec)
    (st : LoadedIndex) (hload : load df encode = some st) (query : String) (top_k : Nat)
    (h2 : top_k ≤ df.rows.length) :
    ∃ idxs : List Nat,
      retrieve st query top_k = .ok (st.df.iloc idxs) ∧
      List.Chain' (fun a b =>
        Score.le (scoreAt st query b) (scoreAt st query a) = true) idxs := by
  obtain ⟨tc, hcol, hst⟩ := load_spec hload
  have hlen : st.embeddings.length = df.rows.length := by
    rw [hst]
    simp only [List.length_map]
    exact getCol_length hcol
  exact ⟨topkAux (scoreAt st query) top_k (List.range st.embeddings.length),
    retrieve_ok st query top_k (by rw [hlen]; exact h2),
    topkAux_chain (fun i => scoreAt_n_pos st query i) top_k _⟩

/-- Witness for C2 at the example index with `top_k = 2`. -/
theorem retrieve_scores_descending_witness :
    ∃ idxs : List Nat,
      retrieve exSt "France" 2 = .ok (exSt.df.iloc idxs) ∧
      List.Chain' (fun a b =>
        Score.le (scoreAt exSt "France" b) (scoreAt exSt "France" a) = true) idxs :=
  retrieve_scores_descending exDf exEncode exSt rfl "France" 2 (by decide)

/-- **C3.** For every loaded dataset, a `top_k` strictly greater than the number of
stored documents makes `retrieve` fail with the invalid-argument error; it neither
clamps `top_k` nor returns all documents. -/
theorem retrieve_oversized_topk_errors (df : DataFrame) (encode : String → Vec)
    (st : LoadedIndex) (hload : load df encode = some st) (query : String) (top_k : Nat)
    (h : df.rows.length < top_k) :
    retrieve st query top_k = .error .invalidArgument := by
  obtain ⟨tc, hcol, hst⟩ := load_spec hload
  have hlen : st.embeddings.length = df.rows.length := by
    rw [hst]
    simp only [List.length_map]
    exact getCol_length hcol
  exact retrieve_err st query top_k (by rw [hlen]; exact h)

/-- Witness for C3 at the example index (two documents, `top_k = 3`). -/
theorem retrieve_oversized_topk_errors_witness :
    retrieve exSt "France" 3 = .error .invalidArgument :=
  retrieve_oversized_topk_errors exDf exEncode exSt rfl "France" 3 (by decide)

/-- **C6.** `retrieve` is deterministic and side-effect free: its result depends only
on the query, `top_k`, and the Embedding Index components, and a repeated call
against the (unchanged) post-call state returns the identical result. -/
theorem retrieve_deterministic_pure (st st2 : LoadedIndex) (query : String) (top_k : Nat)
    (hdf : st.df = st2.df) (henc : st.encode = st2.encode)
    (hemb : st.embeddings = st2.embeddings) :
    retrieve st query top_k = retrieve st2 query top_k ∧
    retrieveStep ((retrieveStep st query top_k).2) query top_k =
      retrieveStep st query top_k := by
  have hs : scoresOf st query = scoresOf st2 query := by
    unfold scoresOf
    rw [henc, hemb]
  constructor
  · rw [retrieve_eq, retrieve_eq, hs, hdf]
  · rfl

/-- Witness for C6 at the example index. -/
theorem retrieve_deterministic_pure_witness :
    retrieve exSt "France" 1 = retrieve exSt "France" 1 ∧
    retrieveStep ((retrieveStep exSt "France" 1).2) "France" 1 =
      retrieveStep exSt "France" 1 :=
  retrieve_deterministic_pure exSt exSt "France" 1 rfl rfl rfl

/-- **C7.** A successful load establishes the alignment invariant — one embedding per
document, the `i`-th obtained by applying the embedding function to the `i`-th
stringified text — and every `retrieve` call preserves it, the state being returned
unchanged. -/
theorem load_alignment_invariant (df : DataFrame) (encode : String → Vec)
    (st : LoadedIndex) (hload : load df encode = some st) :
    aligned st ∧ ∀ query top_k, aligned (retrieveStep st query top_k).2 := by
  obtain ⟨tc, hcol, hst⟩ := load_spec hload
  subst hst
  have hA : aligned ⟨df, encode, tc.map Cell.toStr, (tc.map Cell.toStr).map encode⟩ := by
    refine ⟨?_, ?_, ?_⟩
    · simp only [List.length_map]
      exact getCol_length hcol
    · simp only [List.length_map]
      exact getCol_length hcol
    · intro i hi
      simp only [List.length_map] at hi
      show ((tc.map Cell.toStr).map encode).getD i [] =
        encode ((tc.map Cell.toStr).getD i "")
      rw [getD_map_of_lt encode (tc.map Cell.toStr) i (by rw [List.length_map]; exact hi) ""]
  exact ⟨hA, fun query top_k => hA⟩

/-- Witness for C7 at the example index. -/
theorem load_alignment_invariant_witness :
    aligned exSt ∧ aligned (retrieveStep exSt "France" 1).2 := by
  have h := load_alignment_invariant exDf exEncode exSt rfl
  exact ⟨h.1, h.2 "France" 1⟩

/-- **C8.** No retrieval mutates the process-wide Embedding Index: after a call the
document table and the stored embeddings (indeed the whole state) are unchanged. -/
theorem retrieve_frame (st : LoadedIndex) (query : String) (top_k : Nat) :
    (retrieveStep st query top_k).2.df = st.df ∧
    (retrieveStep st query top_k).2.embeddings = st.embeddings ∧
    (retrieveStep st query top_k).2 = st :=
  ⟨rfl, rfl, rfl⟩

/-- **C9.** Loading succeeds on any dataset with a `text` column, whatever the cell
values: every cell — string, integer or missing — is coerced to its stringified form
before embedding. -/
theorem load_stringifies_text (df : DataFrame) (h : "text" ∈ df.cols) :
    ∃ tc, df.getCol "text" = some tc ∧ loadTexts df = some (tc.map Cell.toStr) := by
  unfold loadTexts DataFrame.getCol
  cases e : df.cols.findIdx? (fun x => x == "text") with
  | none =>
    exfalso
    have := List.findIdx?_eq_none_iff.mp e "text" h
    simp at this
  | some j =>
    simp only [Option.map_some']
    exact ⟨df.rows.map fun r => r.getD j Cell.na, rfl, rfl⟩

/-- Witness for C9 at a dataset whose `text` cells are an integer, a missing value
and a string. -/
theorem load_stringifies_text_witness :
    ∃ tc, mixDf.getCol "text" = some tc ∧ loadTexts mixDf = some (tc.map Cell.toStr) :=
  load_stringifies_text mixDf (by decide)

/-- **C10.** Calling `retrieve` without an explicit `top_k` uses the default
`top_k = 1`: it agrees with `retrieve(query, 1)` on every input. -/
theorem retrieveDefault_eq_retrieve_one (st : LoadedIndex) (query : String) :
    retrieveDefault st query = retrieve st query 1 := rfl

/-- **C4 (counterexample).** At the example index the `/retrieve/` endpoint does not
return the bare text of the best-matching document under `"results"`: it returns the
one-element `text` column (a pandas Series) of the returned row, because the code
calls `.get("text")` on the returned dataframe. -/
theorem retrieve_endpoint_str_counterexample :
    retrieve_endpoint exSt =
      .ok ("results", JVal.series [Cell.str "Paris is the capital of France"]) ∧
    retrieve_endpoint exSt ≠
      .ok ("results", JVal.str "Paris is the capital of France") := by
  constructor
  · decide
  · decide

/-- **C4 (amended).** A GET on `/retrieve/` takes no parameters, queries with the
hardcoded `"France"` and `top_k = 1`, and returns `{"results": r}` where `r` is the
`text` column of the returned one-row dataframe: a one-element series holding the
cell of a best-matching document (one whose stored embedding has maximal cosine
similarity to the embedding of `"France"`), not the bare text string. -/
theorem retrieve_endpoint_results_series (df : DataFrame) (encode : String → Vec)
    (st : LoadedIndex) (hload : load df encode = some st) (hN : 1 ≤ df.rows.length) :
    ∃ tc i, df.getCol "text" = some tc ∧ i < df.rows.length ∧
      (∀ j, j < df.rows.length →
        Score.le (scoreAt st "France" j) (scoreAt st "France" i) = true) ∧
      retrieve_endpoint st = .ok ("results", JVal.series [tc.getD i Cell.na]) := by
  obtain ⟨tc, hcol, hst⟩ := load_spec hload
  have hdf : st.df = df := by rw [hst]
  have hlen : st.embeddings.length = df.rows.length := by
    rw [hst]
    simp only [List.length_map]
    exact getCol_length hcol
  cases e : pickFirstMax (scoreAt st "France") (List.range st.embeddings.length) with
  | none =>
    exfalso
    have := pickFirstMax_eq_none.mp e
    rw [List.range_eq_nil] at this
    omega
  | some m =>
    have hm : m < st.embeddings.length := List.mem_range.mp (pickFirstMax_mem e)
    have hr : retrieve st "France" 1 = .ok (st.df.iloc [m]) := by
      rw [retrieve_ok st "France" 1 (by omega), topkAux_one e]
    have hcol2 : (st.df.iloc [m]).getCol "text" = some [tc.getD m Cell.na] := by
      rw [hdf]
      have hin : ∀ i ∈ [m], i < df.rows.length := by
        intro x hx
        rw [List.mem_singleton] at hx
        subst hx
        omega
      have := getCol_iloc hcol [m] hin
      simpa using this
    refine ⟨tc, m, hcol, by omega, ?_, ?_⟩
    · intro j hj
      exact pickFirstMax_max (fun x => scoreAt_n_pos st "France" x) e j
        (List.mem_range.mpr (by omega))
    · unfold retrieve_endpoint
      rw [hr, except_map_ok]
      rw [hcol2]

/-- Witness for C4 (amended) at the example index. -/
theorem retrieve_endpoint_results_series_witness :
    ∃ tc i, exDf.getCol "text" = some tc ∧ i < exDf.rows.length ∧
      (∀ j, j < exDf.rows.length →
        Score.le (scoreAt exSt "France" j) (scoreAt exSt "France" i) = true) ∧
      retrieve_endpoint exSt = .ok ("results", JVal.series [tc.getD i Cell.na]) :=
  retrieve_endpoint_results_series exDf exEncode exSt rfl (by decide)

/-- **C5 (counterexample).** With two documents sharing the text `"a"` but differing
in a second column, querying with the verbatim text of document `1` returns document
`0`, not document `1`: ties on the maximal score resolve to the earliest position. -/
theorem retrieve_self_match_counterexample :
    dupSt.texts.getD 1 "" = "a" ∧
    retrieve dupSt (dupSt.texts.getD 1 "") 1 = .ok (dupSt.df.iloc [0]) ∧
    dupSt.df.iloc [0] ≠ dupSt.df.iloc [1] := by
  refine ⟨rfl, by decide, by decide⟩

/-- **C5 (amended).** Querying with the verbatim text of document `i` (of nonzero
embedding) returns document `i` itself provided no earlier document also attains the
maximal score against that query; the score of the match is exactly the maximal
cosine similarity `1`. -/
theorem retrieve_self_match (df : DataFrame) (encode : String → Vec) (st : LoadedIndex)
    (hload : load df encode = some st) (i : Nat) (hi : i < st.texts.length)
    (hnz : normSq (st.encode (st.texts.getD i "")) ≠ 0)
    (hfirst : ∀ j, j < i →
      Score.le (scoreAt st (st.texts.getD i "") i)
        (scoreAt st (st.texts.getD i "") j) = false) :
    retrieve st (st.texts.getD i "") 1 = .ok (st.df.iloc [i]) ∧
    (scoreAt st (st.texts.getD i "") i).isOne := by
  obtain ⟨tc, hcol, hst⟩ := load_spec hload
  have hemb : st.embeddings = st.texts.map st.encode := by rw [hst]
  have hi2 : i < st.embeddings.length := by
    rw [hemb, List.length_map]
    exact hi
  have hq_emb : st.embeddings.getD i [] = st.encode (st.texts.getD i "") := by
    rw [hemb, getD_map_of_lt st.encode st.texts i hi ""]
  have hsc : ∀ j, j < st.embeddings.length → scoreAt st (st.texts.getD i "") j =
      cos_sim (st.encode (st.texts.getD i "")) (st.embeddings.getD j []) := by
    intro j hj
    unfold scoreAt scoresOf
    rw [getD_map_of_lt (fun e => cos_sim (st.encode (st.texts.getD i "")) e)
      st.embeddings j hj []]
  have hscore : scoreAt st (st.texts.getD i "") i =
      cos_sim (st.encode (st.texts.getD i "")) (st.encode (st.texts.getD i "")) := by
    rw [hsc i hi2, hq_emb]
  have hmax : ∀ j, j < st.embeddings.length →
      Score.le (scoreAt st (st.texts.getD i "") j)
        (scoreAt st (st.texts.getD i "") i) = true := by
    intro j hj
    rw [hsc j hj, hscore]
    exact le_cos_sim_self _ _ hnz
  exact ⟨retrieve_one_best st (st.texts.getD i "") i hi2 hmax hfirst,
    hscore ▸ cos_sim_self_isOne _ hnz⟩

/-- Witness for C5 (amended): the first example document queried verbatim. -/
theorem retrieve_self_match_witness :
    retrieve exSt (exSt.texts.getD 0 "") 1 = .ok (exSt.df.iloc [0]) ∧
    (scoreAt exSt (exSt.texts.getD 0 "") 0).isOne :=
  retrieve_self_match exDf exEncode exSt rfl 0 (by decide) (by decide)
    (by intro j hj; exact absurd hj (Nat.not_lt_zero j))
